import Mathlib

/-!
Verification of the core of `mvn_ext_each.py` (yetamine/tooling-mvn): the
pruned directory walk (`Main.__find`, `Main.__prune`), the include/exclude
glob filter (`GlobFilter`), the project-marker test (`is_project`) and the
path normalizer (`unix_path`).

Python strings are modelled as `List Char`; `None`-or-sequence arguments as
`Option`; the filesystem seen by `os.walk` as a finite tree whose nodes carry
an `ok` flag modelling whether `scandir` succeeds on that directory.
-/

set_option maxHeartbeats 1600000

abbrev Str := List Char

/-! ## Python string primitives used by the source -/

/-- Models Python `s.split(sep)` for a one-character separator `sep`:
the list of (possibly empty) chunks of `s` between occurrences of `sep`.
`"".split(sep) == ['']` becomes `str_split sep [] = [[]]`. -/
def str_split (sep : Char) : Str → List Str
  | [] => [[]]
  | c :: cs =>
    match str_split sep cs with
    | [] => [[]]
    | g :: gs => if c == sep then [] :: g :: gs else (c :: g) :: gs

/-- Models Python `sep.join(parts)` for a one-character separator. -/
def str_join (sep : Char) : List Str → Str
  | [] => []
  | [g] => g
  | g :: g2 :: gs => g ++ sep :: str_join sep (g2 :: gs)

/-! ## Platform parameters consulted by `unix_path`

The source reads `os.pathsep` (the PATH-list separator, `':'` on POSIX and
`';'` on Windows), `os.sep` (the path-component separator, `'/'` on POSIX
and `'\'` on Windows) and `os.path.isabs`. -/

structure Platform where
  sep : Char
  pathsep : Char
  isabs : Str → Bool

/-- Models `posixpath.isabs`: the path starts with `'/'`. -/
def posix_isabs (p : Str) : Bool := p.head? == some '/'

/-- Models the drive-letter and leading-slash cases of `ntpath.isabs`. -/
def windows_isabs (p : Str) : Bool :=
  match p with
  | c :: ':' :: rest =>
    (c.isAlpha && (rest.head? == some '\\' || rest.head? == some '/')) ||
      c == '\\' || c == '/'
  | _ => p.head? == some '\\' || p.head? == some '/'

/-- POSIX platform parameters: `os.sep = '/'`, `os.pathsep = ':'`. -/
def posixPlatform : Platform := ⟨'/', ':', posix_isabs⟩

/-- Windows platform parameters: `os.sep = '\'`, `os.pathsep = ';'`. -/
def windowsPlatform : Platform := ⟨'\\', ';', windows_isabs⟩

/-- Embeds `unix_path` (lines 40-46 of the source).  The Python function has
no explicit `return` on its final fall-through path, so it returns `None`
there; hence the result type is `Option Str`.  Note that the source compares
`os.pathsep` — not `os.sep` — with `'/'`:

    absolute = os.path.isabs(path)
    if os.pathsep != '/':
        return '/'.join(path.split(os.sep))
    if not absolute:
        return './' + path
-/
def unix_path (pl : Platform) (path : Str) : Option Str :=
  let absolute := pl.isabs path
  if pl.pathsep != '/' then some (str_join '/' (str_split pl.sep path))
  else if !absolute then some ('.' :: '/' :: path)
  else none

/-- The value `unix_path` computes on POSIX, where `os.pathsep = ':'` makes
the first branch fire: `'/'.join(path.split('/'))`. -/
def unix_path_posix (path : Str) : Str := str_join '/' (str_split '/' path)

/-! ## `is_project` and `GlobFilter` -/

/-- Embeds `is_project(dirs, files)` (line 35): `'pom.xml' in files`.
The `dirs` argument is accepted and ignored, exactly as in the source. -/
def is_project (dirs : List Str) (files : List Str) : Bool :=
  let _ := dirs
  files.contains ("pom.xml".toList)

/-- Embeds the state of a `GlobFilter` instance: `self.include` and
`self.exclude` are `None` or a tuple (line 91-92).  `include` is a Lean
keyword, hence the field name `include'`. -/
structure GlobFilter where
  include' : Option (List Str)
  exclude : Option (List Str)
deriving DecidableEq

/-- Embeds the static method `GlobFilter.matches(value, glob_list, default)`
(lines 106-129), parameterized by the primitive matcher `fn` standing for
`fnmatch.fnmatch`: `default` if `glob_list is None`, otherwise whether some
pattern of the list matches (the `for` loop with early `return True`). -/
def GlobFilter.matches (fn : Str → Str → Bool) (value : Str)
    (glob_list : Option (List Str)) (default : Bool) : Bool :=
  match glob_list with
  | none => default
  | some l => l.any fun glob => fn value glob

/-- Embeds `GlobFilter.__call__(self, value)` (lines 97-104):
`GlobFilter.matches(value, self.include, True) and
not GlobFilter.matches(value, self.exclude, False)`. -/
def GlobFilter.call (fn : Str → Str → Bool) (self : GlobFilter) (value : Str) : Bool :=
  GlobFilter.matches fn value self.include' true &&
    !GlobFilter.matches fn value self.exclude false

/-- Concrete instantiation of the matcher used in witnesses:
`fnmatch.fnmatch(value, glob)` for a pattern containing none of the glob
metacharacters `*`, `?`, `[` is exact (case-sensitively, after the identity
case-normalization of POSIX) string equality.  All general theorems below
hold for every matcher `fn`; this one only instantiates them on concrete
metacharacter-free patterns such as the default prune names. -/
def literalMatch (value glob : Str) : Bool := value == glob

/-! ## `Main.__prune` -/

/-- One pass of the loop in `Main.__prune` (lines 230-234):

    for index, name in enumerate(dirs):
        if not passing(name):
            del dirs[index]

The Python list iterator keeps its own cursor `index` and re-checks it
against the current length of the (mutated) list, and `del dirs[index]`
shifts later elements down by one, so after a deletion the element that
slides into position `index` is never examined. -/
def prune_go (passing : Str → Bool) (dirs : List Str) (index : Nat) : List Str :=
  if h : index < dirs.length then
    let name := dirs.get ⟨index, h⟩
    if passing name then prune_go passing dirs (index + 1)
    else prune_go passing (dirs.eraseIdx index) (index + 1)
  else dirs
termination_by dirs.length - index
decreasing_by
  · omega
  · have := dirs.length_eraseIdx_of_lt h
    omega

/-- Embeds `Main.__prune(dirs, passing)`: the final value of `dirs` after
the mutating loop. -/
def Main.prune (dirs : List Str) (passing : Str → Bool) : List Str :=
  prune_go passing dirs 0

/-- The default of the `--prune` option (line 277). -/
def defaultPrune : List Str :=
  [".git".toList, ".svn".toList, "bin".toList, "doc".toList,
   "src".toList, "target".toList]

/-! ## The filesystem model and `Main.__find` -/

/-- A directory tree as seen by `os.walk(..., followlinks=True)`: `ok = false`
models a directory whose `scandir` raises `OSError` (e.g. permission denied),
`subdirs` the named child directories in listing order, `files` the names of
the non-directory entries. -/
inductive FSTree : Type where
  | node (ok : Bool) (subdirs : List (Str × FSTree)) (files : List Str)

instance : Nonempty FSTree := ⟨FSTree.node true [] []⟩

/-- Combines the `(yielded paths, warned paths)` results of walking a list of
sibling subtrees, in order. -/
def gatherPairs (l : List (List Str × List Str)) : List Str × List Str :=
  ((l.map Prod.fst).flatten, (l.map Prod.snd).flatten)

/-- Models `os.path.join(top, name)` on POSIX for a `top` without a trailing
slash, as produced by `os.walk` from a normalized root. -/
def path_join (p : Str) (n : Str) : Str := p ++ '/' :: n

/-- Models `os.path.basename` on POSIX: everything after the last `'/'`. -/
def basename (p : Str) : Str := (str_split '/' p).getLastD []

/-- The traversal-relevant fields of `self.args`: `--with-root`, `--prune`,
`--include`, `--exclude`. -/
structure FindArgs where
  with_root : Bool
  prune : List Str
  include' : Option (List Str)
  exclude : Option (List Str)
deriving DecidableEq

/-- Embeds the generator `Main.__find` (lines 212-228) fused with the POSIX
`os.walk(root_dir, onerror=warning, followlinks=True)` (top-down) that feeds
it, on a finite directory tree.  The first result component collects the
yielded project paths in order, the second the directories reported to the
warning sink (`os.walk` calls `onerror` once when listing a directory fails,
yields no triple for it and descends into none of its children).

For each listed directory `path` the loop body runs:

    if not self.args.with_root and root == root_dir:
        continue            # skips BOTH the test and the prune step
    if is_project(dirs, files) and filtering(os.path.basename(root)):
        yield unix_path(root)
        dirs.clear()        # no child is walked
        continue
    self.__prune(dirs, passing)   # only survivors are walked

with `passing = GlobFilter(None, self.args.prune)` and
`filtering = GlobFilter(self.args.include, self.args.exclude)`.
`os.walk` then recurses, in order, into exactly the names left in `dirs`;
`scandir` yields each name at most once, so walking the child entries whose
name survived is the same as walking the surviving name list. -/
def find_dir (fn : Str → Str → Bool) (args : FindArgs) (root_dir : Str)
    (path : Str) : FSTree → List Str × List Str
  | .node ok subdirs files =>
    if !ok then ([], [path])
    else if !args.with_root && path == root_dir then
      gatherPairs (subdirs.attach.map fun e =>
        find_dir fn args root_dir (path_join path e.1.1) e.1.2)
    else if is_project (subdirs.map Prod.fst) files &&
        GlobFilter.call fn ⟨args.include', args.exclude⟩ (basename path) then
      ([unix_path_posix path], [])
    else
      gatherPairs (((subdirs.attach.filter fun e =>
          (Main.prune (subdirs.map Prod.fst) fun n =>
            GlobFilter.call fn ⟨none, some args.prune⟩ n).contains e.1.1)).map
        fun e => find_dir fn args root_dir (path_join path e.1.1) e.1.2)
termination_by t => sizeOf t
decreasing_by
  all_goals
    simp only [FSTree.node.sizeOf_spec]
    have h1 : sizeOf e.1 < sizeOf subdirs := List.sizeOf_lt_of_mem e.2
    have h2 : sizeOf e.1.2 < sizeOf e.1 := by
      obtain ⟨a, b⟩ := e.1
      simp only [Prod.mk.sizeOf_spec]
      omega
    omega

/-- Embeds a whole run of `Main.__find`: the walk starts at
`root_dir = str(os.path.normpath(self.args.dir))` and `os.walk` reports the
root directory under exactly that name. -/
def Main.find (fn : Str → Str → Bool) (args : FindArgs) (root_dir : Str)
    (t : FSTree) : List Str × List Str :=
  find_dir fn args root_dir root_dir t

/-! ## Well-formedness of a directory tree

Facts every tree handed to `os.walk` by a real filesystem satisfies: entry
names are non-empty, contain no separator, and sibling names are distinct. -/

/-- A legal directory-entry name: non-empty and free of `'/'`. -/
def nameOk (n : Str) : Bool := !n.isEmpty && n.all fun c => c != '/'

/-- Sibling-name distinctness, cf. `List.Nodup`, kept executable. -/
def nodupNames : List Str → Bool
  | [] => true
  | n :: ns => !ns.contains n && nodupNames ns

/-- A tree as a real filesystem presents it: at every node the subdirectory
names are legal and pairwise distinct. -/
def wellFormed : FSTree → Bool
  | .node _ subdirs _ =>
    ((subdirs.map Prod.fst).all nameOk && nodupNames (subdirs.map Prod.fst)) &&
      subdirs.attach.all fun e => wellFormed e.1.2
termination_by t => sizeOf t
decreasing_by
  simp only [FSTree.node.sizeOf_spec]
  have h1 : sizeOf e.1 < sizeOf subdirs := List.sizeOf_lt_of_mem e.2
  have h2 : sizeOf e.1.2 < sizeOf e.1 := by
    obtain ⟨a, b⟩ := e.1
    simp only [Prod.mk.sizeOf_spec]
    omega
  omega

/-- `q` lies strictly below `p` in the directory hierarchy: `q` extends `p`
by a `'/'` and a (possibly empty) remainder. -/
def isDescendant (q p : Str) : Prop := ∃ r, q = p ++ '/' :: r

/-- `q` is `p` itself or lies below it. -/
def inCone (q p : Str) : Prop := q = p ∨ isDescendant q p

/-! ## Concrete fixtures used by witnesses and counterexamples -/

/-- The traversal arguments produced by the default command line:
`--with-root` unset, default `--prune`, no `--include`, no `--exclude`. -/
def defaultArgs : FindArgs := ⟨false, defaultPrune, none, none⟩

/-- A listable directory holding just a `pom.xml` file. -/
def pomLeaf : FSTree := FSTree.node true [] ["pom.xml".toList]

/-- The tree `root/{x/pom.xml, x/y/pom.xml}` of the specification. -/
def nestedTree : FSTree :=
  FSTree.node true
    [("x".toList, FSTree.node true [("y".toList, pomLeaf)] ["pom.xml".toList])] []

/-- A root that is itself a project and whose only child is the
prune-matching project directory `target`. -/
def rootPruneTree : FSTree :=
  FSTree.node true [("target".toList, pomLeaf)] ["pom.xml".toList]

/-- The tree `root/{a/bin/, a/doc/pom.xml}`: a non-qualifying directory `a`
with two adjacent prune-matching children. -/
def pruneBugTree : FSTree :=
  FSTree.node true
    [("a".toList, FSTree.node true
      [("bin".toList, FSTree.node true [] []), ("doc".toList, pomLeaf)] [])] []

/-- Children of a directory: an unlistable project directory `bad` next to a
listable project directory `good`. -/
def mixedSubdirs : List (Str × FSTree) :=
  [("bad".toList, FSTree.node false [("sub".toList, pomLeaf)] ["pom.xml".toList]),
   ("good".toList, pomLeaf)]


/-! ## Lemmas about the string primitives -/

theorem str_split_ne_nil (sep : Char) (l : Str) : str_split sep l ≠ [] := by
  cases l with
  | nil => simp [str_split]
  | cons c cs =>
    rw [str_split]
    rcases h : str_split sep cs with _ | ⟨g, gs⟩
    · simp
    · by_cases hc : c == sep <;> simp [hc]

theorem str_join_cons_cons (sep : Char) (c : Char) (g : Str) (gs : List Str) :
    str_join sep ((c :: g) :: gs) = c :: str_join sep (g :: gs) := by
  cases gs <;> rfl

theorem str_join_str_split (sep : Char) (l : Str) :
    str_join sep (str_split sep l) = l := by
  induction l with
  | nil => rfl
  | cons c cs ih =>
    rcases h : str_split sep cs with _ | ⟨g, gs⟩
    · exact absurd h (str_split_ne_nil sep cs)
    · rw [h] at ih
      have hs : str_split sep (c :: cs) =
          if c == sep then [] :: g :: gs else (c :: g) :: gs := by
        rw [str_split, h]
      rw [hs]
      by_cases hc : c = sep
      · rw [if_pos (by simp [hc])]
        have hj : str_join sep ([] :: g :: gs) = sep :: str_join sep (g :: gs) := rfl
        rw [hj, ih, hc]
      · rw [if_neg (by simp [hc])]
        rw [str_join_cons_cons, ih]

theorem unix_path_posix_id (p : Str) : unix_path_posix p = p :=
  str_join_str_split '/' p

theorem mem_str_split_ne_sep (sep : Char) (l : Str) :
    ∀ g ∈ str_split sep l, ∀ c ∈ g, c ≠ sep := by
  induction l with
  | nil => simp [str_split]
  | cons c cs ih =>
    rcases h : str_split sep cs with _ | ⟨g, gs⟩
    · exact absurd h (str_split_ne_nil sep cs)
    · rw [h] at ih
      have hs : str_split sep (c :: cs) =
          if c == sep then [] :: g :: gs else (c :: g) :: gs := by
        rw [str_split, h]
      rw [hs]
      by_cases hc : c = sep
      · rw [if_pos (by simp [hc])]
        intro g' hg' c' hc'
        simp only [List.mem_cons] at hg'
        rcases hg' with hg' | hg' | hg'
        · subst hg'; simp at hc'
        · exact ih g' (by simp [hg']) c' hc'
        · exact ih g' (by simp [hg']) c' hc'
      · rw [if_neg (by simp [hc])]
        intro g' hg' c' hc'
        simp only [List.mem_cons] at hg'
        rcases hg' with hg' | hg'
        · subst hg'
          simp only [List.mem_cons] at hc'
          rcases hc' with hc' | hc'
          · subst hc'; exact hc
          · exact ih g (by simp) c' hc'
        · exact ih g' (by simp [hg']) c' hc'

theorem str_split_of_no_sep (sep : Char) (l : Str) (h : ∀ c ∈ l, c ≠ sep) :
    str_split sep l = [l] := by
  induction l with
  | nil => rfl
  | cons c cs ih =>
    rw [str_split]
    rw [ih fun c' hc' => h c' (by simp [hc'])]
    have hc : (c == sep) = false := by
      simpa using h c (by simp)
    simp [hc]

theorem mem_str_join (sep : Char) (gs : List Str) :
    ∀ c ∈ str_join sep gs, c = sep ∨ ∃ g ∈ gs, c ∈ g := by
  induction gs with
  | nil => simp [str_join]
  | cons g gs ih =>
    cases gs with
    | nil => intro c hc; exact Or.inr ⟨g, by simp, by simpa using hc⟩
    | cons g2 gs2 =>
      intro c hc
      rw [str_join] at hc
      rcases List.mem_append.mp hc with hc | hc
      · exact Or.inr ⟨g, by simp, hc⟩
      · rcases List.mem_cons.mp hc with hc | hc
        · exact Or.inl hc
        · rcases ih c hc with hc | ⟨g', hg', hcg'⟩
          · exact Or.inl hc
          · exact Or.inr ⟨g', by simp [hg'], hcg'⟩

/-! ## Claim C2: GlobFilter membership -/

/-- C2: for every tested value `v` (and every primitive matcher), GlobFilter
membership equals (include absent OR `v` matches some include pattern) AND
NOT (exclude present AND `v` matches some exclude pattern); a present-but-empty
include sequence rejects every value, and a value matching any exclude pattern
is rejected regardless of include. -/
theorem claim_C2 (fn : Str → Str → Bool) (inc exc : Option (List Str)) (v : Str) :
    (GlobFilter.call fn ⟨inc, exc⟩ v = true ↔
      ((inc = none ∨ ∃ g ∈ inc.getD [], fn v g = true) ∧
        ¬(exc ≠ none ∧ ∃ g ∈ exc.getD [], fn v g = true))) ∧
    GlobFilter.call fn ⟨some [], exc⟩ v = false ∧
    (∀ l, exc = some l → (∃ g ∈ l, fn v g = true) →
      GlobFilter.call fn ⟨inc, exc⟩ v = false) := by
  refine ⟨?_, ?_, ?_⟩
  · cases inc with
    | none =>
      cases exc with
      | none => simp [GlobFilter.call, GlobFilter.matches]
      | some le => simp [GlobFilter.call, GlobFilter.matches, List.any_eq_true]
    | some li =>
      cases exc with
      | none => simp [GlobFilter.call, GlobFilter.matches, List.any_eq_true]
      | some le => simp [GlobFilter.call, GlobFilter.matches, List.any_eq_true]
  · simp [GlobFilter.call, GlobFilter.matches]
  · intro l hl hg
    subst hl
    simp only [GlobFilter.call, GlobFilter.matches, Bool.and_eq_false_iff]
    right
    simpa [List.any_eq_true] using hg

/-- Witness for C2 at concrete inputs: an empty include list rejects `"x"`,
and `"x"` matching the exclude pattern `"x"` is rejected even though the
include stage passes it. -/
theorem claim_C2_witness :
    GlobFilter.call literalMatch ⟨some [], none⟩ ("x".toList) = false ∧
    GlobFilter.call literalMatch ⟨none, some ["x".toList]⟩ ("x".toList) = false :=
  ⟨(claim_C2 literalMatch (some []) none ("x".toList)).2.1,
    (claim_C2 literalMatch none (some ["x".toList]) ("x".toList)).2.2
      ["x".toList] rfl ⟨"x".toList, by decide⟩⟩

/-! ## Claim C10: present-but-empty exclude behaves like absent exclude -/

/-- C10: a GlobFilter built with a present-but-empty exclude sequence accepts
exactly the same values as one built with exclude absent, for every include
configuration and every tested value. -/
theorem claim_C10 (fn : Str → Str → Bool) (inc : Option (List Str)) (v : Str) :
    GlobFilter.call fn ⟨inc, some []⟩ v = GlobFilter.call fn ⟨inc, none⟩ v := rfl

/-! ## Claim C6: the path-normalizer contract (code bug) -/

/-- C6 (code bug): the code does not satisfy the three normalization rules.
Because `unix_path` compares `os.pathsep` (`':'`/`';'`, never `'/'`) instead
of `os.sep` with `'/'`, the `'./'`-prepending branch is unreachable on every
real platform: on Windows the relative path `a\b` is returned as `a/b`, not
`./a/b` as the claimed third rule demands, and on POSIX the relative path
`a/b` stays `a/b` instead of becoming `./a/b`. -/
theorem claim_C6_eval :
    unix_path windowsPlatform ("a\\b".toList) = some ("a/b".toList) ∧
    unix_path posixPlatform ("a/b".toList) = some ("a/b".toList) ∧
    ¬ unix_path windowsPlatform ("a\\b".toList) = some ("./a/b".toList) ∧
    ¬ unix_path posixPlatform ("a/b".toList) = some ("./a/b".toList) := by
  refine ⟨by decide, by decide, by decide, by decide⟩

/-! ## Claim C9: when the fall-through `None` actually happens -/

/-- C9 counterexample: on Windows (native path separator `'\' ≠ '/'`), the
relative path `a\b`, which lacks a leading `./`, does NOT make `unix_path`
return `None`; the first branch returns the separator-replaced string. -/
theorem claim_C9_cex :
    ¬ unix_path windowsPlatform ("a\\b".toList) = none := by decide

/-- C9 amended: `unix_path` falls through to `None` exactly when the
platform's PATH-list separator `os.pathsep` (which the code tests instead of
`os.sep`; it is `':'` or `';'` on real platforms, never `'/'`) equals `'/'`
and the path is absolute — never for a relative path on a platform whose
separator differs from `'/'`. -/
theorem claim_C9 (pl : Platform) (path : Str) :
    unix_path pl path = none ↔ (pl.pathsep = '/' ∧ pl.isabs path = true) := by
  unfold unix_path
  by_cases h : pl.pathsep = '/'
  · rw [if_neg (by simp [h])]
    by_cases ha : pl.isabs path = true
    · rw [if_neg (by simp [ha])]
      simp [h, ha]
    · rw [if_pos (by simp [Bool.not_eq_true] at ha ⊢; exact ha)]
      simp [h, ha]
  · rw [if_pos (by simp [h])]
    simp [h]

/-! ## Claim C8: idempotence of the normalizer -/

theorem str_join_no_sep (sep : Char) (gs : List Str) (hsep : sep ≠ '/')
    (h : ∀ g ∈ gs, ∀ c ∈ g, c ≠ sep) :
    ∀ c ∈ str_join '/' gs, c ≠ sep := by
  intro c hc
  rcases mem_str_join '/' gs c hc with hc | ⟨g, hg, hcg⟩
  · subst hc; exact fun hx => hsep hx.symm
  · exact h g hg c hcg

/-- C8: the path normalizer is idempotent on every platform whose PATH-list
separator differs from `'/'` (which includes POSIX, `':'`, and Windows, `';'`,
i.e. every platform the program runs on): re-normalizing the produced string
returns it unchanged. -/
theorem claim_C8 (pl : Platform) (x : Str) (h : pl.pathsep ≠ '/') :
    (unix_path pl x).bind (unix_path pl) = unix_path pl x := by
  have hx : unix_path pl x = some (str_join '/' (str_split pl.sep x)) := by
    unfold unix_path
    rw [if_pos (by simp [h])]
  rw [hx]
  show unix_path pl (str_join '/' (str_split pl.sep x)) =
    some (str_join '/' (str_split pl.sep x))
  have hy : unix_path pl (str_join '/' (str_split pl.sep x)) =
      some (str_join '/' (str_split pl.sep (str_join '/' (str_split pl.sep x)))) := by
    unfold unix_path
    rw [if_pos (by simp [h])]
  rw [hy]
  by_cases hsep : pl.sep = '/'
  · rw [hsep, str_join_str_split, str_join_str_split]
  · have hfree : ∀ c ∈ str_join '/' (str_split pl.sep x), c ≠ pl.sep :=
      str_join_no_sep pl.sep (str_split pl.sep x) hsep (mem_str_split_ne_sep pl.sep x)
    rw [str_split_of_no_sep pl.sep _ hfree]
    rfl

/-- Witness for C8: POSIX has `os.pathsep = ':' ≠ '/'`, and normalizing
`a/b` twice equals normalizing it once. -/
theorem claim_C8_witness :
    posixPlatform.pathsep ≠ '/' ∧
    (unix_path posixPlatform ("a/b".toList)).bind (unix_path posixPlatform) =
      unix_path posixPlatform ("a/b".toList) :=
  ⟨by decide, claim_C8 posixPlatform ("a/b".toList) (by decide)⟩

/-! ## Unfolding and membership lemmas for the traversal -/

theorem find_dir_node (fn : Str → Str → Bool) (args : FindArgs) (rd path : Str)
    (ok : Bool) (subdirs : List (Str × FSTree)) (files : List Str) :
    find_dir fn args rd path (FSTree.node ok subdirs files) =
      if !ok then ([], [path])
      else if !args.with_root && path == rd then
        gatherPairs (subdirs.attach.map fun e =>
          find_dir fn args rd (path_join path e.1.1) e.1.2)
      else if is_project (subdirs.map Prod.fst) files &&
          GlobFilter.call fn ⟨args.include', args.exclude⟩ (basename path) then
        ([unix_path_posix path], [])
      else
        gatherPairs (((subdirs.attach.filter fun e =>
            (Main.prune (subdirs.map Prod.fst) fun n =>
              GlobFilter.call fn ⟨none, some args.prune⟩ n).contains e.1.1)).map
          fun e => find_dir fn args rd (path_join path e.1.1) e.1.2) := by
  rw [find_dir]

theorem mem_gather_map_fst {subdirs : List (Str × FSTree)}
    (G : {x // x ∈ subdirs} → List Str × List Str) (q : Str) :
    q ∈ (gatherPairs (subdirs.attach.map G)).1 ↔
      ∃ e : {x // x ∈ subdirs}, q ∈ (G e).1 := by
  simp [gatherPairs, List.mem_flatten, List.mem_map, List.mem_attach]
  constructor
  · rintro ⟨l, ⟨a, b, hb, rfl⟩, hq⟩
    exact ⟨a, b, hb, hq⟩
  · rintro ⟨a, b, hb, hq⟩
    exact ⟨_, ⟨a, b, hb, rfl⟩, hq⟩

theorem mem_gather_filter_map_fst {subdirs : List (Str × FSTree)}
    (p : {x // x ∈ subdirs} → Bool) (G : {x // x ∈ subdirs} → List Str × List Str)
    (q : Str) :
    q ∈ (gatherPairs ((subdirs.attach.filter p).map G)).1 ↔
      ∃ e : {x // x ∈ subdirs}, p e = true ∧ q ∈ (G e).1 := by
  simp [gatherPairs, List.mem_flatten, List.mem_map, List.mem_filter,
    List.mem_attach]
  constructor
  · rintro ⟨l, ⟨a, b, hb, hp, rfl⟩, hq⟩
    exact ⟨a, b, hb, hp, hq⟩
  · rintro ⟨a, b, hb, hp, hq⟩
    exact ⟨_, ⟨a, b, hb, hp, rfl⟩, hq⟩

theorem sizeOf_subdir_lt {x : Str × FSTree} {subdirs : List (Str × FSTree)}
    (h : x ∈ subdirs) (ok : Bool) (files : List Str) :
    sizeOf x.2 < sizeOf (FSTree.node ok subdirs files) := by
  simp only [FSTree.node.sizeOf_spec]
  have h1 : sizeOf x < sizeOf subdirs := List.sizeOf_lt_of_mem h
  have h2 : sizeOf x.2 < sizeOf x := by
    obtain ⟨a, b⟩ := x
    simp only [Prod.mk.sizeOf_spec]
    omega
  omega

/-! ## The hierarchy order on paths -/

theorem isDescendant_length {q p : Str} (h : isDescendant q p) :
    p.length < q.length := by
  obtain ⟨r, rfl⟩ := h
  simp

theorem isDescendant_irrefl (p : Str) : ¬ isDescendant p p := fun h =>
  absurd (isDescendant_length h) (lt_irrefl _)

theorem inCone_length {q p : Str} (h : inCone q p) : p.length ≤ q.length := by
  rcases h with rfl | h
  · exact le_rfl
  · exact Nat.le_of_lt (isDescendant_length h)

theorem inCone_path_join {q path : Str} (m : Str)
    (h : inCone q (path_join path m)) : isDescendant q path := by
  rcases h with rfl | ⟨r, rfl⟩
  · exact ⟨m, rfl⟩
  · exact ⟨m ++ '/' :: r, by simp [path_join]⟩

theorem isDescendant_inCone_trans {q p c : Str} (h1 : isDescendant q p)
    (h2 : inCone p c) : isDescendant q c := by
  obtain ⟨r, rfl⟩ := h1
  rcases h2 with rfl | ⟨r2, rfl⟩
  · exact ⟨r, rfl⟩
  · exact ⟨r2 ++ '/' :: r, by simp⟩

theorem yields_inCone (fn : Str → Str → Bool) (args : FindArgs) (rd : Str) :
    ∀ (t : FSTree) (path : Str) (q : Str),
      q ∈ (find_dir fn args rd path t).1 → inCone q path := by
  have H : ∀ (n : Nat) (t : FSTree), sizeOf t ≤ n → ∀ (path q : Str),
      q ∈ (find_dir fn args rd path t).1 → inCone q path := by
    intro n
    induction n with
    | zero =>
      intro t ht
      exfalso
      obtain ⟨ok, sd, fl⟩ := t
      simp only [FSTree.node.sizeOf_spec] at ht
      omega
    | succ n ih =>
      intro t ht path q hq
      obtain ⟨ok, sd, fl⟩ := t
      rw [find_dir_node] at hq
      by_cases hok : ok
      · rw [if_neg (by simp [hok])] at hq
        by_cases hroot : (!args.with_root && path == rd) = true
        · rw [if_pos hroot] at hq
          rcases (mem_gather_map_fst _ q).mp hq with ⟨e, he⟩
          have hs : sizeOf e.1.2 ≤ n := by
            have := sizeOf_subdir_lt e.2 ok fl
            simp only [FSTree.node.sizeOf_spec] at this ht ⊢
            omega
          exact Or.inr (inCone_path_join e.1.1 (ih e.1.2 hs _ q he))
        · rw [if_neg hroot] at hq
          by_cases hqual : (is_project (sd.map Prod.fst) fl &&
              GlobFilter.call fn ⟨args.include', args.exclude⟩ (basename path)) = true
          · rw [if_pos hqual] at hq
            simp at hq
            rw [hq, unix_path_posix_id]
            exact Or.inl rfl
          · rw [if_neg hqual] at hq
            rcases (mem_gather_filter_map_fst _ _ q).mp hq with ⟨e, _, he⟩
            have hs : sizeOf e.1.2 ≤ n := by
              have := sizeOf_subdir_lt e.2 ok fl
              simp only [FSTree.node.sizeOf_spec] at this ht ⊢
              omega
            exact Or.inr (inCone_path_join e.1.1 (ih e.1.2 hs _ q he))
      · rw [if_pos (by simp [hok])] at hq
        simp at hq
  intro t path q hq
  exact H (sizeOf t) t le_rfl path q hq

theorem nameOk_no_slash {n : Str} (h : nameOk n = true) : ∀ c ∈ n, c ≠ '/' := by
  intro c hc
  have := (Bool.and_eq_true _ _).mp h |>.2
  rw [List.all_eq_true] at this
  have hx := this c hc
  simpa using hx

theorem nameOk_ne_nil {n : Str} (h : nameOk n = true) : n ≠ [] := by
  intro hn
  subst hn
  simp [nameOk] at h

theorem slashfree_prefix_eq : ∀ (a b s1 s2 : Str),
    (∀ c ∈ a, c ≠ '/') → (∀ c ∈ b, c ≠ '/') →
    (s1 = [] ∨ ∃ r, s1 = '/' :: r) → (s2 = [] ∨ ∃ r, s2 = '/' :: r) →
    a ++ s1 = b ++ s2 → a = b := by
  intro a
  induction a with
  | nil =>
    intro b s1 s2 _ hb hs1 _ heq
    cases b with
    | nil => rfl
    | cons y b' =>
      exfalso
      simp only [List.nil_append, List.cons_append] at heq
      rcases hs1 with rfl | ⟨r, rfl⟩
      · simp at heq
      · have hy : y = '/' := by
          have := heq
          injection this with h1 _
          exact h1.symm
        exact hb y (by simp) hy
  | cons x a' ih =>
    intro b s1 s2 ha hb hs1 hs2 heq
    cases b with
    | nil =>
      exfalso
      simp only [List.nil_append, List.cons_append] at heq
      rcases hs2 with rfl | ⟨r, rfl⟩
      · simp at heq
      · have hx : x = '/' := by
          injection heq.symm with h1 _
          exact h1.symm
        exact ha x (by simp) hx
    | cons y b' =>
      simp only [List.cons_append, List.cons.injEq] at heq
      obtain ⟨rfl, heq⟩ := heq
      rw [ih b' s1 s2 (fun c hc => ha c (by simp [hc]))
        (fun c hc => hb c (by simp [hc])) hs1 hs2 heq]

theorem inCone_join_decomp {q p n : Str} (h : inCone q (path_join p n)) :
    ∃ s, (s = [] ∨ ∃ r, s = '/' :: r) ∧ q = (p ++ ['/']) ++ (n ++ s) := by
  rcases h with rfl | ⟨r, rfl⟩
  · exact ⟨[], Or.inl rfl, by simp [path_join]⟩
  · exact ⟨'/' :: r, Or.inr ⟨r, rfl⟩, by simp [path_join]⟩

theorem cones_disjoint {q p n1 n2 : Str} (h1 : nameOk n1 = true)
    (h2 : nameOk n2 = true) (hne : n1 ≠ n2)
    (hc1 : inCone q (path_join p n1)) (hc2 : inCone q (path_join p n2)) :
    False := by
  obtain ⟨s1, hs1, rfl⟩ := inCone_join_decomp hc1
  obtain ⟨s2, hs2, heq⟩ := inCone_join_decomp hc2
  have heq' : n1 ++ s1 = n2 ++ s2 := by
    have := heq
    rwa [List.append_right_inj] at this
  exact hne (slashfree_prefix_eq n1 n2 s1 s2 (nameOk_no_slash h1)
    (nameOk_no_slash h2) hs1 hs2 heq')

theorem nodupNames_inj {l : List (Str × FSTree)}
    (h : nodupNames (l.map Prod.fst) = true) :
    ∀ x ∈ l, ∀ y ∈ l, x.1 = y.1 → x = y := by
  induction l with
  | nil => simp
  | cons a l ih =>
    simp only [List.map_cons, nodupNames, Bool.and_eq_true] at h
    obtain ⟨hna, hnl⟩ := h
    have hna' : a.1 ∉ l.map Prod.fst := by
      simp only [Bool.not_eq_true'] at hna
      simpa using hna
    intro x hx y hy hxy
    simp only [List.mem_cons] at hx hy
    rcases hx with rfl | hx
    · rcases hy with rfl | hy
      · rfl
      · exact absurd (by rw [hxy]; exact List.mem_map_of_mem Prod.fst hy) hna'
    · rcases hy with rfl | hy
      · exact absurd (by rw [← hxy]; exact List.mem_map_of_mem Prod.fst hx) hna'
      · exact ih hnl x hx y hy hxy

theorem wellFormed_node {ok : Bool} {sd : List (Str × FSTree)} {fl : List Str}
    (h : wellFormed (FSTree.node ok sd fl) = true) :
    (∀ x ∈ sd, nameOk x.1 = true ∧ wellFormed x.2 = true) ∧
      nodupNames (sd.map Prod.fst) = true := by
  rw [wellFormed] at h
  simp only [Bool.and_eq_true, List.all_eq_true] at h
  obtain ⟨⟨hall, hnodup⟩, hrec⟩ := h
  refine ⟨fun x hx => ⟨?_, ?_⟩, hnodup⟩
  · exact hall x.1 (List.mem_map_of_mem Prod.fst hx)
  · exact hrec ⟨x, hx⟩ (List.mem_attach _ _)

theorem children_nesting_aux (fn : Str → Str → Bool) (args : FindArgs) (rd : Str)
    {sd : List (Str × FSTree)} {path p q : Str}
    (hwfx : ∀ x ∈ sd, nameOk x.1 = true ∧ wellFormed x.2 = true)
    (hnodup : nodupNames (sd.map Prod.fst) = true)
    (IH : ∀ x ∈ sd, ∀ (pa : Str), wellFormed x.2 = true →
      ∀ a ∈ (find_dir fn args rd pa x.2).1, ∀ b ∈ (find_dir fn args rd pa x.2).1,
        ¬ isDescendant b a)
    (e1 e2 : {x // x ∈ sd})
    (he1 : p ∈ (find_dir fn args rd (path_join path e1.1.1) e1.1.2).1)
    (he2 : q ∈ (find_dir fn args rd (path_join path e2.1.1) e2.1.2).1)
    (hd : isDescendant q p) : False := by
  by_cases hee : e1.1 = e2.1
  · have he1' : p ∈ (find_dir fn args rd (path_join path e2.1.1) e2.1.2).1 := by
      rw [← hee]
      exact he1
    exact IH e2.1 e2.2 (path_join path e2.1.1) (hwfx e2.1 e2.2).2 p he1' q he2 hd
  · have hnames : e1.1.1 ≠ e2.1.1 := fun hn =>
      hee (nodupNames_inj hnodup e1.1 e1.2 e2.1 e2.2 hn)
    have hc1 : inCone p (path_join path e1.1.1) :=
      yields_inCone fn args rd _ _ p he1
    have hc2 : inCone q (path_join path e2.1.1) :=
      yields_inCone fn args rd _ _ q he2
    have hq1 : inCone q (path_join path e1.1.1) :=
      Or.inr (isDescendant_inCone_trans hd hc1)
    exact cones_disjoint (hwfx e1.1 e1.2).1 (hwfx e2.1 e2.2).1 hnames hq1 hc2

theorem find_dir_nesting (fn : Str → Str → Bool) (args : FindArgs) (rd : Str) :
    ∀ (t : FSTree) (path : Str), wellFormed t = true →
      ∀ p ∈ (find_dir fn args rd path t).1, ∀ q ∈ (find_dir fn args rd path t).1,
        ¬ isDescendant q p := by
  have H : ∀ (n : Nat) (t : FSTree), sizeOf t ≤ n → ∀ (path : Str),
      wellFormed t = true →
      ∀ p ∈ (find_dir fn args rd path t).1, ∀ q ∈ (find_dir fn args rd path t).1,
        ¬ isDescendant q p := by
    intro n
    induction n with
    | zero =>
      intro t ht
      exfalso
      obtain ⟨ok, sd, fl⟩ := t
      simp only [FSTree.node.sizeOf_spec] at ht
      omega
    | succ n ih =>
      intro t ht path hwf p hp q hq hd
      obtain ⟨ok, sd, fl⟩ := t
      obtain ⟨hwfx, hnodup⟩ := wellFormed_node hwf
      have IH : ∀ x ∈ sd, ∀ (pa : Str), wellFormed x.2 = true →
          ∀ a ∈ (find_dir fn args rd pa x.2).1,
            ∀ b ∈ (find_dir fn args rd pa x.2).1, ¬ isDescendant b a := by
        intro x hx pa hw a ha b hb
        have hs : sizeOf x.2 ≤ n := by
          have hlt := sizeOf_subdir_lt hx ok fl
          omega
        exact ih x.2 hs pa hw a ha b hb
      rw [find_dir_node] at hp hq
      by_cases hok : ok
      · rw [if_neg (by simp [hok])] at hp hq
        by_cases hroot : (!args.with_root && path == rd) = true
        · rw [if_pos hroot] at hp hq
          rcases (mem_gather_map_fst _ p).mp hp with ⟨e1, he1⟩
          rcases (mem_gather_map_fst _ q).mp hq with ⟨e2, he2⟩
          exact children_nesting_aux fn args rd hwfx hnodup IH e1 e2 he1 he2 hd
        · rw [if_neg hroot] at hp hq
          by_cases hqual : (is_project (sd.map Prod.fst) fl &&
              GlobFilter.call fn ⟨args.include', args.exclude⟩ (basename path)) = true
          · rw [if_pos hqual] at hp hq
            simp at hp hq
            rw [hp] at hd
            rw [hq] at hd
            exact isDescendant_irrefl _ hd
          · rw [if_neg hqual] at hp hq
            rcases (mem_gather_filter_map_fst _ _ p).mp hp with ⟨e1, _, he1⟩
            rcases (mem_gather_filter_map_fst _ _ q).mp hq with ⟨e2, _, he2⟩
            exact children_nesting_aux fn args rd hwfx hnodup IH e1 e2 he1 he2 hd
      · rw [if_pos (by simp [hok])] at hp
        simp at hp
  intro t path hwf p hp q hq
  exact H (sizeOf t) t le_rfl path hwf p hp q hq

/-! ## Attach-free equations for the four branches of the walk body -/

theorem attach_filter_map {α β : Type} (l : List α) (p : α → Bool) (F : α → β) :
    ((l.attach.filter fun e => p e.1).map fun e => F e.1) = (l.filter p).map F := by
  induction l with
  | nil => rfl
  | cons a l ih =>
    rw [List.attach_cons, List.filter_cons, List.filter_cons]
    by_cases hp : p a
    · rw [if_pos (by simpa using hp), if_pos (by simpa using hp)]
      rw [List.map_cons, List.map_cons]
      congr 1
      rw [List.filter_map, List.map_map]
      exact ih
    · rw [if_neg (by simpa using hp), if_neg (by simpa using hp)]
      rw [List.filter_map, List.map_map]
      exact ih

theorem all_map_lambda {α β : Type} (l : List α) (f : α → β) (p : β → Bool) :
    (l.map f).all p = l.all fun x => p (f x) := by
  induction l with
  | nil => rfl
  | cons a l ih =>
    rw [List.map_cons, List.all_cons, List.all_cons, ih]

theorem attach_all {α : Type} (l : List α) (p : α → Bool) :
    (l.attach.all fun e => p e.1) = l.all p := by
  induction l with
  | nil => rfl
  | cons a l ih =>
    rw [List.attach_cons, List.all_cons, List.all_cons]
    congr 1
    rw [all_map_lambda]
    exact ih

theorem find_dir_fail (fn : Str → Str → Bool) (args : FindArgs) (rd path : Str)
    (sd : List (Str × FSTree)) (fl : List Str) :
    find_dir fn args rd path (FSTree.node false sd fl) = ([], [path]) := by
  rw [find_dir_node]
  simp

theorem find_dir_skip (fn : Str → Str → Bool) (args : FindArgs) (rd path : Str)
    (sd : List (Str × FSTree)) (fl : List Str)
    (h : (!args.with_root && path == rd) = true) :
    find_dir fn args rd path (FSTree.node true sd fl) =
      gatherPairs (sd.map fun x => find_dir fn args rd (path_join path x.1) x.2) := by
  rw [find_dir_node, if_neg (by simp), if_pos h]
  congr 1
  exact List.attach_map_val sd fun x => find_dir fn args rd (path_join path x.1) x.2

theorem find_dir_qualify (fn : Str → Str → Bool) (args : FindArgs) (rd path : Str)
    (sd : List (Str × FSTree)) (fl : List Str)
    (h1 : (!args.with_root && path == rd) = false)
    (h2 : (is_project (sd.map Prod.fst) fl &&
      GlobFilter.call fn ⟨args.include', args.exclude⟩ (basename path)) = true) :
    find_dir fn args rd path (FSTree.node true sd fl) =
      ([unix_path_posix path], []) := by
  rw [find_dir_node, if_neg (by simp), if_neg (by simp [h1]), if_pos h2]

theorem find_dir_else (fn : Str → Str → Bool) (args : FindArgs) (rd path : Str)
    (sd : List (Str × FSTree)) (fl : List Str)
    (h1 : (!args.with_root && path == rd) = false)
    (h2 : (is_project (sd.map Prod.fst) fl &&
      GlobFilter.call fn ⟨args.include', args.exclude⟩ (basename path)) = false) :
    find_dir fn args rd path (FSTree.node true sd fl) =
      gatherPairs ((sd.filter fun x =>
        (Main.prune (sd.map Prod.fst) fun n =>
          GlobFilter.call fn ⟨none, some args.prune⟩ n).contains x.1).map
        fun x => find_dir fn args rd (path_join path x.1) x.2) := by
  rw [find_dir_node, if_neg (by simp), if_neg (by simp [h1]), if_neg (by simp [h2])]
  congr 1
  exact attach_filter_map sd
    (fun x =>
      (Main.prune (sd.map Prod.fst) fun n =>
        GlobFilter.call fn ⟨none, some args.prune⟩ n).contains x.1)
    (fun x => find_dir fn args rd (path_join path x.1) x.2)

theorem mem_gather_map {l : List (Str × FSTree)}
    {F : Str × FSTree → List Str × List Str} {q : Str} :
    q ∈ (gatherPairs (l.map F)).1 ↔ ∃ x ∈ l, q ∈ (F x).1 := by
  simp [gatherPairs, List.mem_flatten, List.mem_map]
  constructor
  · rintro ⟨m, ⟨a, b, hab, rfl⟩, hq⟩
    exact ⟨a, b, hab, hq⟩
  · rintro ⟨a, b, hab, hq⟩
    exact ⟨_, ⟨a, b, hab, rfl⟩, hq⟩

theorem wellFormed_node_eq (ok : Bool) (sd : List (Str × FSTree))
    (fl : List Str) :
    wellFormed (FSTree.node ok sd fl) =
      (((sd.map Prod.fst).all nameOk && nodupNames (sd.map Prod.fst)) &&
        sd.all fun x => wellFormed x.2) := by
  rw [wellFormed]
  congr 1
  exact attach_all sd fun x => wellFormed x.2

/-! ## Claim C1: yielded paths are nesting-free -/

/-- C1: for every matcher, traversal configuration, root name and well-formed
directory tree, the set of paths yielded by `Main.__find` is nesting-free: no
yielded path is a descendant of another yielded path, because once a directory
qualifies and is yielded, `dirs.clear()` prevents any of its subdirectories
from being visited or yielded. -/
theorem claim_C1 (fn : Str → Str → Bool) (args : FindArgs) (root_dir : Str)
    (t : FSTree) (h : wellFormed t = true) :
    ∀ p ∈ (Main.find fn args root_dir t).1, ∀ q ∈ (Main.find fn args root_dir t).1,
      ¬ isDescendant q p :=
  find_dir_nesting fn args root_dir t root_dir h

/-- Witness for C1 on the spec's tree `root/{x/pom.xml, x/y/pom.xml}` under
the default configuration. -/
theorem claim_C1_witness :
    wellFormed nestedTree = true ∧
    (∀ p ∈ (Main.find literalMatch defaultArgs (".".toList) nestedTree).1,
      ∀ q ∈ (Main.find literalMatch defaultArgs (".".toList) nestedTree).1,
        ¬ isDescendant q p) :=
  ⟨by simp only [nestedTree, pomLeaf, wellFormed_node_eq, List.map_cons,
      List.map_nil, List.all_cons, List.all_nil]; decide,
   claim_C1 literalMatch defaultArgs (".".toList) nestedTree
    (by simp only [nestedTree, pomLeaf, wellFormed_node_eq, List.map_cons,
      List.map_nil, List.all_cons, List.all_nil]; decide)⟩

/-! ## Claim C5: the qualification test -/

/-- C5: a visited directory that is subject to the qualification test (i.e.
not skipped as the root) is yielded iff `pom.xml` is among its direct file
children and the include/exclude GlobFilter accepts its basename; the
equivalence holds for every subdirectory list `sd`, so the test is independent
of the subdirectory names (and the model carries no file contents at all, so
it is purely structural). -/
theorem claim_C5 (fn : Str → Str → Bool) (args : FindArgs) (rd path : Str)
    (sd : List (Str × FSTree)) (fl : List Str)
    (h : args.with_root = true ∨ path ≠ rd) :
    unix_path_posix path ∈ (find_dir fn args rd path (FSTree.node true sd fl)).1 ↔
      ("pom.xml".toList ∈ fl ∧
        GlobFilter.call fn ⟨args.include', args.exclude⟩ (basename path) = true) := by
  rw [find_dir_node]
  rw [if_neg (by simp)]
  have hroot : ¬ (!args.with_root && path == rd) = true := by
    intro hc
    rw [Bool.and_eq_true] at hc
    rcases h with h | h
    · rw [h] at hc
      simp at hc
    · exact h (by simpa using hc.2)
  rw [if_neg hroot]
  by_cases hqual : (is_project (sd.map Prod.fst) fl &&
      GlobFilter.call fn ⟨args.include', args.exclude⟩ (basename path)) = true
  · rw [if_pos hqual]
    rw [Bool.and_eq_true] at hqual
    have hpom : "pom.xml".toList ∈ fl := by
      have := hqual.1
      simp [is_project] at this
      exact this
    simp only [List.mem_singleton]
    exact ⟨fun _ => ⟨hpom, hqual.2⟩, fun _ => trivial⟩
  · rw [if_neg hqual]
    constructor
    · intro hmem
      exfalso
      rcases (mem_gather_filter_map_fst _ _ _).mp hmem with ⟨e, _, he⟩
      have hdesc := inCone_path_join e.1.1 (yields_inCone fn args rd _ _ _ he)
      rw [unix_path_posix_id] at hdesc
      exact isDescendant_irrefl path hdesc
    · rintro ⟨hpom, hcall⟩
      exfalso
      apply hqual
      rw [Bool.and_eq_true]
      refine ⟨?_, hcall⟩
      simp [is_project]
      exact hpom

/-- Witness for C5: the directory `./x` with a `pom.xml` and no
subdirectories, visited from root `.`, under the default filters. -/
theorem claim_C5_witness :
    ("./x".toList ≠ ".".toList) ∧
    (unix_path_posix ("./x".toList) ∈
        (find_dir literalMatch defaultArgs (".".toList) ("./x".toList)
          (FSTree.node true [] ["pom.xml".toList])).1 ↔
      ("pom.xml".toList ∈ ["pom.xml".toList] ∧
        GlobFilter.call literalMatch ⟨none, none⟩
          (basename ("./x".toList)) = true)) :=
  ⟨by decide, claim_C5 literalMatch defaultArgs (".".toList) ("./x".toList) []
    ["pom.xml".toList] (Or.inr (by decide))⟩

/-! ## Claim C7: a directory that cannot be listed -/

/-- C7: a visited directory whose listing fails produces exactly one warning
(the failed path), yields nothing and has none of its children visited — for
every subdirectory list, so even project subtrees below it contribute nothing;
and a sibling directory kept by the prune filter in any other visited
directory is still walked, its yields all appearing in the parent's yields,
so the error is never fatal to the walk. -/
theorem claim_C7 (fn : Str → Str → Bool) (args : FindArgs) (rd path : Str)
    (sd : List (Str × FSTree)) (fl : List Str) :
    find_dir fn args rd path (FSTree.node false sd fl) = ([], [path]) ∧
    (∀ x ∈ sd, (args.with_root = true ∨ path ≠ rd) →
      (is_project (sd.map Prod.fst) fl &&
        GlobFilter.call fn ⟨args.include', args.exclude⟩ (basename path)) = false →
      (Main.prune (sd.map Prod.fst) fun n =>
        GlobFilter.call fn ⟨none, some args.prune⟩ n).contains x.1 = true →
      ∀ y ∈ (find_dir fn args rd (path_join path x.1) x.2).1,
        y ∈ (find_dir fn args rd path (FSTree.node true sd fl)).1) := by
  refine ⟨find_dir_fail fn args rd path sd fl, ?_⟩
  intro x hx h hqual hkept y hy
  have h1 : (!args.with_root && path == rd) = false := by
    rcases h with h | h
    · simp [h]
    · simp [h]
  rw [find_dir_else fn args rd path sd fl h1 hqual]
  exact mem_gather_map.mpr ⟨x, List.mem_filter.mpr ⟨hx, hkept⟩, hy⟩

unseal prune_go in
/-- Witness for C7: an unlistable directory `bad` (with a project subtree
below it) next to a listable project directory `good`, inside a visited
directory `./p`: listing `./p/bad` fails with one warning and no yields, while
the sibling `./p/good` is still walked. -/
theorem claim_C7_witness :
    find_dir literalMatch defaultArgs (".".toList) ("./p".toList)
      (FSTree.node false mixedSubdirs []) = ([], ["./p".toList]) ∧
    (∀ y ∈ (find_dir literalMatch defaultArgs (".".toList)
        (path_join ("./p".toList) ("good".toList)) pomLeaf).1,
      y ∈ (find_dir literalMatch defaultArgs (".".toList) ("./p".toList)
        (FSTree.node true mixedSubdirs [])).1) :=
  ⟨(claim_C7 literalMatch defaultArgs (".".toList) ("./p".toList)
      mixedSubdirs []).1,
   (claim_C7 literalMatch defaultArgs (".".toList) ("./p".toList)
      mixedSubdirs []).2 ("good".toList, pomLeaf) (by simp [mixedSubdirs])
      (Or.inr (by decide)) (by decide) (by decide)⟩

/-! ## Claim C4: what happens at the root when `--with-root` is unset -/

/-- C4 counterexample: with `include_root` false, prune pattern list
containing `target` (the default) and the tree `root/{target/pom.xml}`, the
walk descends into the prune-matching child `target` of the root and yields
`./target` — so the prune filter is NOT applied to the root's children as the
claim states. -/
theorem claim_C4_cex :
    "./target".toList ∈
      (Main.find literalMatch defaultArgs (".".toList) rootPruneTree).1 := by
  rw [Main.find, rootPruneTree, pomLeaf]
  rw [find_dir_skip literalMatch defaultArgs (".".toList) (".".toList) _ _
    (by decide)]
  rw [List.map_cons, List.map_nil]
  rw [find_dir_qualify literalMatch defaultArgs (".".toList)
    (path_join (".".toList) ("target".toList)) [] ["pom.xml".toList]
    (by decide) (by decide)]
  simp [gatherPairs]
  decide

/-- C4 amended: when `include_root` is false the root is never yielded (its
qualification test is skipped even when it contains `pom.xml`), and ALL of its
direct subdirectories are considered for descent: the `continue` skips the
prune step together with the qualification test, so every child's yields —
including those of prune-matching children — appear in the traversal's
yields. -/
theorem claim_C4 (fn : Str → Str → Bool) (args : FindArgs) (rd : Str)
    (sd : List (Str × FSTree)) (fl : List Str) (h : args.with_root = false) :
    unix_path_posix rd ∉ (Main.find fn args rd (FSTree.node true sd fl)).1 ∧
    (∀ x ∈ sd, ∀ y ∈ (find_dir fn args rd (path_join rd x.1) x.2).1,
      y ∈ (Main.find fn args rd (FSTree.node true sd fl)).1) := by
  have hskip : (!args.with_root && rd == rd) = true := by simp [h]
  rw [Main.find, find_dir_skip fn args rd rd sd fl hskip]
  constructor
  · intro hmem
    rcases mem_gather_map.mp hmem with ⟨x, _, hx⟩
    have hdesc := inCone_path_join x.1 (yields_inCone fn args rd _ _ _ hx)
    rw [unix_path_posix_id] at hdesc
    exact isDescendant_irrefl rd hdesc
  · intro x hx y hy
    exact mem_gather_map.mpr ⟨x, hx, hy⟩

/-- Witness for the amended C4 on `root/{target/pom.xml}` with a root that is
itself a project. -/
theorem claim_C4_witness :
    unix_path_posix (".".toList) ∉
      (Main.find literalMatch defaultArgs (".".toList) rootPruneTree).1 ∧
    (∀ x ∈ [("target".toList, pomLeaf)],
      ∀ y ∈ (find_dir literalMatch defaultArgs (".".toList)
          (path_join (".".toList) x.1) x.2).1,
        y ∈ (Main.find literalMatch defaultArgs (".".toList) rootPruneTree).1) :=
  claim_C4 literalMatch defaultArgs (".".toList) [("target".toList, pomLeaf)]
    ["pom.xml".toList] rfl

/-! ## Claim C3: pruning of matching subdirectory names (code bug) -/

unseal prune_go in
/-- C3 (code bug): `Main.__prune` deletes from the list while iterating it,
so with the adjacent prune-matching names `['bin', 'doc']` (both in the
default prune set) it removes `bin` and then skips the shifted `doc`, which
survives; consequently in the tree `root/{a/bin/, a/doc/pom.xml}` the walk
descends into the prune-matching directory `doc` and even yields `./a/doc`,
although the claim says every prune-matching name is removed and never
visited. -/
theorem claim_C3_eval :
    Main.prune ["bin".toList, "doc".toList]
        (fun n => GlobFilter.call literalMatch ⟨none, some defaultPrune⟩ n) =
      ["doc".toList] ∧
    (Main.find literalMatch defaultArgs (".".toList) pruneBugTree).1 =
      ["./a/doc".toList] := by
  refine ⟨by decide, ?_⟩
  rw [Main.find, pruneBugTree, pomLeaf]
  rw [find_dir_skip literalMatch defaultArgs (".".toList) (".".toList) _ _
    (by decide)]
  rw [List.map_cons, List.map_nil]
  rw [find_dir_else literalMatch defaultArgs (".".toList)
    (path_join (".".toList) ("a".toList))
    [("bin".toList, FSTree.node true [] []),
     ("doc".toList, FSTree.node true [] ["pom.xml".toList])] []
    (by decide) (by decide)]
  rw [List.filter_cons]
  rw [if_neg (by decide)]
  rw [List.filter_cons]
  rw [if_pos (by decide)]
  rw [List.filter_nil]
  rw [List.map_cons, List.map_nil]
  rw [find_dir_qualify literalMatch defaultArgs (".".toList)
    (path_join (path_join (".".toList) ("a".toList)) ("doc".toList)) []
    ["pom.xml".toList] (by decide) (by decide)]
  simp [gatherPairs]
  decide
